import Mathlib

/-!
Verification of the go-logger repository's bypass-path matcher and
context-attribute propagation protocol.

The definitions below are shallow embeddings of the Go source:
  * the Ant-style glob matcher (`matchAntPattern`, `matchAntParts`,
    `matchSegment`, `matchWildcard` / `wildLoopF`),
  * the regular-expression dialect (`compileBypassPatterns`, `matchRegex`),
    where the external Go `regexp` (RE2) library is modelled by a regex AST
    (`Regexp`), a parser for the subset of RE2 syntax the rules use
    (`parseGoRegex`; unsupported constructs yield `none`, i.e. are treated
    as compile failures), and positional matching semantics (`Regexp.posFrom`),
  * the bypass registry (`shouldBypassMiddlewareLogging`, `matchMethod`),
  * the context-attribute store (`GoContext`, `SetRequestID`, `GetUser`, …),
    where Go's `context.Context` value chain is modelled as an inductive
    chain of nodes and a stored `nil` interface value is identified with
    absence,
  * the middleware (`LoggerMiddleware`) and detachment (`DetachContext`).

Machine strings are modelled as Lean `String` / `List Char`; Go maps are
modelled as association lists (iteration order fixed by the model, which is
a determinisation of Go's unspecified map order).
-/

/-- Model of Go `strings.Split(s, sep)` for a one-character separator:
splits on every occurrence, never returns an empty list. -/
def splitOnChar (sep : Char) (l : List Char) : List (List Char) :=
  l.foldr
    (fun c acc =>
      match acc with
      | [] => [[c]]
      | curr :: rest => if c = sep then [] :: curr :: rest else (c :: curr) :: rest)
    [[]]

/-- Model of Go `strings.Trim(s, cutset)` for a one-character cutset:
removes leading and trailing occurrences of `c`. -/
def trimCharEnds (c : Char) (l : List Char) : List Char :=
  ((l.dropWhile (· = c)).reverse.dropWhile (· = c)).reverse

/-- Model of Go `strings.TrimSpace`. -/
def trimSpace (l : List Char) : List Char :=
  ((l.dropWhile Char.isWhitespace).reverse.dropWhile Char.isWhitespace).reverse

/-- Model of Go `strings.EqualFold` (restricted to the ASCII folding the
HTTP method strings use). -/
def stringsEqualFold (a b : List Char) : Bool :=
  a.map Char.toLower == b.map Char.toLower

/-- One iteration-bounded run of the imperative loop inside the Go function
`matchWildcard` (src/unnamed/part_000 lines 453-480).  State: `pIdx`/`sIdx`
are the pattern/string cursors, `starIdx` is the position of the most recent
`*` (Go's `-1` sentinel is `none`), `matchIdx` the backtrack restart
position.  `none` as a result means the fuel ran out (theorem
`wildLoopF_total` below shows the stated fuel never runs out). -/
def wildLoopF (pat str : List Char) :
    Nat → Nat → Nat → Option Nat → Nat → Option Bool
  | 0, _, _, _, _ => none
  | fuel+1, pIdx, sIdx, starIdx, matchIdx =>
    if sIdx < str.length then
      if pIdx < pat.length ∧ (pat.getD pIdx ' ' = '?' ∨ pat.getD pIdx ' ' = str.getD sIdx ' ') then
        wildLoopF pat str fuel (pIdx+1) (sIdx+1) starIdx matchIdx
      else if pIdx < pat.length ∧ pat.getD pIdx ' ' = '*' then
        wildLoopF pat str fuel (pIdx+1) sIdx (some pIdx) sIdx
      else
        match starIdx with
        | some k => wildLoopF pat str fuel (k+1) (matchIdx+1) (some k) (matchIdx+1)
        | none => some false
    else
      some ((pat.drop pIdx).dropWhile (· = '*') |>.isEmpty)

/-- Go `matchWildcard(pattern, str)`: `?` matches one character, `*` zero or
more characters, greedy with backtracking. -/
def matchWildcard (pat str : List Char) : Bool :=
  (wildLoopF pat str ((str.length + 1) * (pat.length + 2)) 0 0 none 0).getD false

/-- Go `matchSegment(pattern, segment)` (src/unnamed/part_000 lines 444-450). -/
def matchSegment (pat seg : List Char) : Bool :=
  if pat = ['*'] then true else matchWildcard pat seg

/-- Go `matchAntParts(patternParts, pathParts)` (src/unnamed/part_000
lines 405-440), rephrased on the suffixes the two cursor indices denote:
a `**` pattern segment in final position succeeds immediately, a non-final
`**` tries every split point of the remaining path (the `for i := pathIdx;
i <= len(pathParts)` inner loop becomes the `List.range` scan over suffix
drops), and when the path is exhausted the trailing `**` segments are
skipped before requiring both lists to be consumed. -/
def matchAntParts : List (List Char) → List (List Char) → Bool
  | p :: ps, q :: qs =>
    if p = ['*', '*'] then
      if ps.isEmpty then true
      else (List.range ((q :: qs).length + 1)).any fun i => matchAntParts ps ((q :: qs).drop i)
    else
      matchSegment p q && matchAntParts ps qs
  | pat, [] => ((pat.dropWhile (· = ['*', '*'])).isEmpty : Bool)
  | [], _ :: _ => false

/-- Go `matchAntPattern(pattern, path)` (src/unnamed/part_000 lines 393-403):
exact-equality fast path, then segment-wise matching after trimming and
splitting on `/`. -/
def matchAntPattern (pattern path : String) : Bool :=
  if pattern = path then true
  else
    matchAntParts (splitOnChar '/' (trimCharEnds '/' pattern.toList))
      (splitOnChar '/' (trimCharEnds '/' path.toList))

/-! ### Model of the external Go `regexp` (RE2) collaborator

The bypass rules delegate regex evaluation to Go's `regexp` package.  We
model it by a regex AST with positional matching semantics, and a parser
covering the RE2 subset the rules use (literals, `\`-escaped punctuation,
character classes of ranges, `.`, `*`, `+`, `?`, `^`, `$`, `|` with RE2's
precedence).  Any construct outside the subset makes the parser return
`none`, i.e. is treated by the model as a compile failure. -/

/-- Regex AST. `bol`/`eol` are the `^`/`$` anchors (RE2 default mode:
beginning/end of text); `cls` is a character class given by inclusive
ranges; `dot` is `.` (any character except newline). -/
inductive Regexp where
  | eps
  | lit (c : Char)
  | cls (ranges : List (Char × Char))
  | dot
  | bol
  | eol
  | cat (a b : Regexp)
  | alt (a b : Regexp)
  | star (a : Regexp)
deriving DecidableEq, Repr

/-- Iterate the position-closure step for `star`: repeatedly extend the
set of reachable end positions by one more iteration of the body. -/
def starIter (f : Nat → List Nat) : Nat → List Nat → List Nat
  | 0, acc => acc
  | n+1, acc => starIter f n ((acc ++ acc.flatMap f).dedup)

/-- Positional matching semantics: `r.posFrom s i` is the list of positions
`j` such that `r` matches the substring `s[i..j)` of `s` (anchors consult
the absolute position). -/
def Regexp.posFrom (s : List Char) : Regexp → Nat → List Nat
  | .eps, i => [i]
  | .lit c, i => if s.get? i = some c then [i+1] else []
  | .cls rs, i =>
    match s.get? i with
    | some ch => if rs.any (fun r => r.1 ≤ ch ∧ ch ≤ r.2) then [i+1] else []
    | none => []
  | .dot, i =>
    match s.get? i with
    | some ch => if ch = '\n' then [] else [i+1]
    | none => []
  | .bol, i => if i = 0 then [i] else []
  | .eol, i => if i = s.length then [i] else []
  | .cat a b, i => ((a.posFrom s i).flatMap (b.posFrom s)).dedup
  | .alt a b, i => (a.posFrom s i ++ b.posFrom s i).dedup
  | .star a, i => starIter (a.posFrom s) (s.length + 1) [i]

/-- Characters that are special in RE2 syntax (escaping them yields the
literal character; unescaped ones that the model does not support make
parsing fail). -/
def isRegexSpecial (c : Char) : Bool :=
  c = '\\' || c = '.' || c = '+' || c = '*' || c = '?' || c = '(' || c = ')' ||
  c = '|' || c = '[' || c = ']' || c = '^' || c = '$' ||
  c = Char.ofNat 123 || c = Char.ofNat 125

/-- Parse the body of a character class (after the opening `[`), as a list
of inclusive ranges; a single character `c` is the range `c-c`.  Negated
classes and in-class escapes are outside the modelled subset. -/
def parseClassBody : List Char → Option (List (Char × Char) × List Char)
  | [] => none
  | ']' :: _ => none
  | '\\' :: _ => none
  | '-' :: _ => none
  | '^' :: _ => none
  | c :: '-' :: d :: rest =>
    if d = ']' then none
    else if c ≤ d then
      match parseClassRest rest with
      | some (rs, rest') => some ((c, d) :: rs, rest')
      | none => none
    else none
  | c :: rest =>
    match parseClassRest rest with
    | some (rs, rest') => some ((c, c) :: rs, rest')
    | none => none
where
  /-- Continue a class body, allowing it to close with `]`. -/
  parseClassRest : List Char → Option (List (Char × Char) × List Char)
  | [] => none
  | ']' :: rest => some ([], rest)
  | '\\' :: _ => none
  | '-' :: _ => none
  | c :: '-' :: d :: rest =>
    if d = ']' then none
    else if c ≤ d then
      match parseClassRest rest with
      | some (rs, rest') => some ((c, d) :: rs, rest')
      | none => none
    else none
  | c :: rest =>
    match parseClassRest rest with
    | some (rs, rest') => some ((c, c) :: rs, rest')
    | none => none

/-- Apply a postfix repetition operator to an atom, if one follows. -/
def applyRepeatOp (r : Regexp) (l : List Char) : Regexp × List Char :=
  match l with
  | '*' :: rest => (.star r, rest)
  | '+' :: rest => (.cat r (.star r), rest)
  | '?' :: rest => (.alt r .eps, rest)
  | _ => (r, l)

/-- Does the remaining input begin with a repetition operator? -/
def startsWithRepeatOp : List Char → Bool
  | '*' :: _ => true
  | '+' :: _ => true
  | '?' :: _ => true
  | _ => false

/-- Parse a concatenation of atoms (fuelled; each step consumes at least
one character, the callers supply enough fuel).  Stops at `|` or end of
input.  Repetition operators applied to anchors are outside the subset. -/
def parseSeqF : Nat → List Char → Option (Regexp × List Char)
  | 0, _ => none
  | _+1, [] => some (.eps, [])
  | _+1, '|' :: rest => some (.eps, '|' :: rest)
  | fuel+1, c :: rest =>
    let atom : Option (Regexp × List Char × Bool) :=
      if c = '^' then some (.bol, rest, false)
      else if c = '$' then some (.eol, rest, false)
      else if c = '.' then some (.dot, rest, true)
      else if c = '\\' then
        match rest with
        | d :: rest' => if d.isAlphanum then none else some (.lit d, rest', true)
        | [] => none
      else if c = '[' then
        match parseClassBody rest with
        | some (rs, rest') => some (.cls rs, rest', true)
        | none => none
      else if isRegexSpecial c then none
      else some (.lit c, rest, true)
    match atom with
    | none => none
    | some (r, rest', canRepeat) =>
      if ¬ canRepeat ∧ startsWithRepeatOp rest' then none
      else
        let (r2, rest'') := if canRepeat then applyRepeatOp r rest' else (r, rest')
        match parseSeqF fuel rest'' with
        | some (rs, restFinal) => some (.cat r2 rs, restFinal)
        | none => none

/-- Parse an alternation of sequences (RE2 precedence: `|` binds loosest,
over the whole remaining expression). -/
def parseAltF : Nat → List Char → Option Regexp
  | 0, _ => none
  | fuel+1, l =>
    match parseSeqF (l.length + 1) l with
    | some (r, []) => some r
    | some (r, '|' :: rest) =>
      match parseAltF fuel rest with
      | some r2 => some (.alt r r2)
      | none => none
    | _ => none

/-- Model of Go `regexp.Compile`: parse the pattern into the AST, `none`
on compile failure (which includes every construct outside the modelled
subset). -/
def parseGoRegex (s : String) : Option Regexp :=
  parseAltF (s.length + 1) s.toList

/-- Model of Go `(*Regexp).MatchString`: true iff some substring of `s`
(equivalently, some start position) yields a match. -/
def regexpMatchString (re : Regexp) (s : String) : Bool :=
  (List.range (s.toList.length + 1)).any fun i => !(re.posFrom s.toList i).isEmpty

/-! ### Bypass rules and registry -/

/-- Go struct `BypassRequestLogging` (src/unnamed/part_000 lines 325-330).
`regex` is the pre-compiled pattern (`nil` modelled as `none`); the field is
unexported, so rules constructed outside the package always carry `none`. -/
structure BypassRequestLogging where
  Path : String
  Methods : String
  IsRegex : Bool
  regex : Option Regexp
deriving DecidableEq, Repr

/-- Go `compileBypassPatterns` (src/unnamed/part_000 lines 334-345):
copies each rule and, for regex rules, stores the result of compiling
`"^" + Path + "$"` when compilation succeeds (on failure the copied
`regex` field is left as it was). -/
def compileBypassPatterns (patterns : List BypassRequestLogging) :
    List BypassRequestLogging :=
  patterns.map fun p =>
    if p.IsRegex then
      match parseGoRegex ("^" ++ p.Path ++ "$") with
      | some re => { p with regex := some re }
      | none => p
    else p

/-- Go `matchMethod(methods, method)` (src/unnamed/part_000 lines 369-386):
empty filter accepts everything; otherwise case-insensitive comparison
against each comma-separated, whitespace-trimmed entry. -/
def matchMethod (methods method : String) : Bool :=
  if methods = "" then true
  else if ¬ (methods.toList.contains ',') then
    stringsEqualFold (trimSpace methods.toList) method.toList
  else
    (splitOnChar ',' methods.toList).any fun m =>
      stringsEqualFold (trimSpace m) method.toList

/-- Go `matchRegex(bypass, path)` (src/unnamed/part_000 lines 484-496):
uses the pre-compiled regex when available, otherwise compiles
`"^" + Path + "$"` on the fly; a compile error yields `false`. -/
def matchRegex (bypass : BypassRequestLogging) (path : String) : Bool :=
  match bypass.regex with
  | some re => regexpMatchString re path
  | none =>
    match parseGoRegex ("^" ++ bypass.Path ++ "$") with
    | some re => regexpMatchString re path
    | none => false

/-- Go `shouldBypassMiddlewareLogging` (src/unnamed/part_000 lines 347-365):
scan the rule list, skipping rules whose method filter rejects the request,
and return true on the first rule whose dialect-specific pattern matches. -/
def shouldBypassMiddlewareLogging :
    List BypassRequestLogging → String → String → Bool
  | [], _, _ => false
  | bypass :: rest, path, method =>
    if ¬ matchMethod bypass.Methods method then
      shouldBypassMiddlewareLogging rest path method
    else if bypass.IsRegex then
      if matchRegex bypass path then true
      else shouldBypassMiddlewareLogging rest path method
    else
      if matchAntPattern bypass.Path path then true
      else shouldBypassMiddlewareLogging rest path method

/-- The per-rule acceptance predicate the spec describes: the method filter
accepts the method and the path pattern matches per the rule's dialect. -/
def ruleMatches (b : BypassRequestLogging) (path method : String) : Bool :=
  matchMethod b.Methods method &&
    (if b.IsRegex then matchRegex b path else matchAntPattern b.Path path)

/-- The two-rule registry of the spec's end-to-end scenario. -/
def scenarioRegistry : List BypassRequestLogging :=
  compileBypassPatterns
    [{ Path := "/health", Methods := "", IsRegex := false, regex := none },
     { Path := "^/metrics$", Methods := "GET", IsRegex := true, regex := none }]

/-! ### Context-attribute store

Go's `context.Context` is modelled as an inductive chain of derivation
nodes.  `Value` lookup walks from the most recent node outward; a stored
`nil` interface value is identified with absence, so lookups return
`Option GoAny`.  Context keys carry their Go type: the package's private
`contextKey` string type is distinct from a plain `string` key, exactly as
in Go's `==`-based key comparison. -/

/-- Model of a non-nil Go `any` value stored in a context or logged. -/
inductive GoAny where
  | str (s : String)
  | num (n : Int)
deriving DecidableEq, Repr

/-- A context key: either the package's private `contextKey` string type or
a plain `string` (used for the extra-field allow-list lookups). -/
inductive CtxKey where
  | ctxKey (s : String)
  | strKey (s : String)
deriving DecidableEq, Repr

/-- Go constant `requestIdKey` (src/logger.go lines 18-21). -/
def requestIdKey : CtxKey := .ctxKey "request_id"

/-- Go constant `userKey`. -/
def userKey : CtxKey := .ctxKey "user"

/-- Go constant `requestIdContextKey = string(requestIdKey)`. -/
def requestIdContextKey : String := "request_id"

/-- Go constant `userContextKey = string(userKey)`. -/
def userContextKey : String := "user"

/-- A Go `context.Context`: the background context, a `WithValue` node, a
cancellable node (whose flag records whether cancel was called), or a
deadline node. -/
inductive GoContext where
  | background
  | withValue (parent : GoContext) (key : CtxKey) (val : GoAny)
  | withCancel (parent : GoContext) (cancelled : Bool)
  | withDeadline (parent : GoContext) (deadline : Nat)
deriving DecidableEq, Repr

/-- `ctx.Value(key)`: walk the chain outward, most recent binding wins;
`none` models Go's `nil` result. -/
def GoContext.value : GoContext → CtxKey → Option GoAny
  | .background, _ => none
  | .withValue parent k v, key => if key = k then some v else parent.value key
  | .withCancel parent _, key => parent.value key
  | .withDeadline parent _, key => parent.value key

/-- Whether the context's done channel is closed at (model) time `now`:
a cancelled ancestor or an expired deadline anywhere in the chain. -/
def GoContext.doneAt : GoContext → Nat → Bool
  | .background, _ => false
  | .withValue parent _ _, now => parent.doneAt now
  | .withCancel parent cancelled, now => cancelled || parent.doneAt now
  | .withDeadline parent deadline, now => decide (deadline ≤ now) || parent.doneAt now

/-- The `Logger` receiver state (src/logger.go lines 35-41); the zap sink
is the external emission collaborator and is not part of the model.  The Go
maps `fixedKeyValues` is modelled as an association list. -/
structure Logger where
  requestIDPrefixStr : String
  fixedKeyValues : List (String × GoAny)
  extraFields : List String
  devMode : Bool
deriving Repr

/-- Go `(*Logger).SetRequestID` (src/logger.go lines 186-188). -/
def SetRequestID (_l : Logger) (ctx : GoContext) (requestId : String) : GoContext :=
  ctx.withValue requestIdKey (.str requestId)

/-- Go `(*Logger).GetRequestID` (src/logger.go lines 190-193): value lookup
plus a `.(string)` type assertion. -/
def GetRequestID (_l : Logger) (ctx : GoContext) : String × Bool :=
  match ctx.value requestIdKey with
  | some (.str s) => (s, true)
  | _ => ("", false)

/-- Go `(*Logger).SetUser` (src/logger.go lines 195-197). -/
def SetUser (_l : Logger) (ctx : GoContext) (user : GoAny) : GoContext :=
  ctx.withValue userKey user

/-- Go `(*Logger).GetUser` (src/logger.go lines 199-202): found iff the
looked-up value is non-nil. -/
def GetUser (_l : Logger) (ctx : GoContext) : Option GoAny × Bool :=
  match ctx.value userKey with
  | some u => (some u, true)
  | none => (none, false)

/-- Insert into a model Go map (association list): overwrite the existing
entry for the key, else append. -/
def mapInsert (m : List (String × GoAny)) (k : String) (v : GoAny) :
    List (String × GoAny) :=
  if m.any (fun kv => kv.1 = k) then
    m.map fun kv => if kv.1 = k then (k, v) else kv
  else m ++ [(k, v)]

/-- Lookup in a model Go map. -/
def mapLookup (m : List (String × GoAny)) (k : String) : Option GoAny :=
  (m.find? (fun kv => kv.1 = k)).map (·.2)

/-- Go `(*Logger).GetExtraFields` (src/logger.go lines 204-217): `false`
iff the allow-list is empty; otherwise the map of every allow-listed field
that is bound (under its plain-string key) in the context. -/
def GetExtraFields (l : Logger) (ctx : GoContext) :
    List (String × GoAny) × Bool :=
  if l.extraFields.isEmpty then ([], false)
  else
    (l.extraFields.foldl
      (fun m field =>
        match ctx.value (.strKey field) with
        | some v => mapInsert m field v
        | none => m)
      [], true)

/-- Go `(*Logger).combineAttributes` (src/logger.go lines 251-271): build
the flat key-value slice by successive appends — fixed key-values, then
request id, then user, then extra fields, then the caller's pairs. -/
def combineAttributes (l : Logger) (ctx : GoContext)
    (keysAndValues : List GoAny) : List GoAny :=
  let c0 : List GoAny := []
  let c1 := l.fixedKeyValues.foldl (fun acc kv => acc ++ [.str kv.1, kv.2]) c0
  let c2 :=
    match GetRequestID l ctx with
    | (requestId, true) => c1 ++ [.str requestIdContextKey, .str requestId]
    | _ => c1
  let c3 :=
    match GetUser l ctx with
    | (some user, true) => c2 ++ [.str userContextKey, user]
    | _ => c2
  let c4 :=
    match GetExtraFields l ctx with
    | (extraFieldsMap, true) =>
      extraFieldsMap.foldl (fun acc kv => acc ++ [.str kv.1, kv.2]) c3
    | _ => c3
  c4 ++ keysAndValues

/-- Go `(*Logger).DetachContext` (src/logger.go lines 221-242): start from
`context.Background()` and copy the request id, the user, and every present
extra field from the original context. -/
def DetachContext (l : Logger) (ctx : GoContext) : GoContext :=
  let c0 := GoContext.background
  let c1 :=
    match GetRequestID l ctx with
    | (requestID, true) => SetRequestID l c0 requestID
    | _ => c0
  let c2 :=
    match GetUser l ctx with
    | (some user, true) => SetUser l c1 user
    | _ => c1
  match GetExtraFields l ctx with
  | (extraFieldsMap, true) =>
    extraFieldsMap.foldl (fun acc kv => acc.withValue (.strKey kv.1) kv.2) c2
  | _ => c2

/-- Go `(*Logger).WithTimeout` (src/logger.go lines 246-249): a detached
context wrapped in an independent deadline node. -/
def WithTimeout (l : Logger) (ctx : GoContext) (deadline : Nat) : GoContext :=
  (DetachContext l ctx).withDeadline deadline

/-! ### Middleware -/

/-- Observable outcome of one request through the middleware: the context
handed to the wrapped handler and the automatic log records emitted (by
message; the record payloads are the emission collaborator's concern). -/
structure MiddlewareOutcome where
  ctx : GoContext
  autoLogs : List String
deriving Repr

/-- Go `(*Logger).LoggerMiddleware` (src/unnamed/part_000 lines 242-300)
for a single request: compile the bypass list, generate and bind a request
id (`GenerateRequestID` is prefix + a fresh uuid, the latter passed in as
`freshId`), decide the bypass once, and emit the "Incoming request" /
"Request completed" records only when enabled and not bypassed. -/
def LoggerMiddleware (l : Logger) (logRequestDetails logCompleteTime : Bool)
    (bypassList : List BypassRequestLogging) (path method freshId : String)
    (reqCtx : GoContext) : MiddlewareOutcome :=
  let compiledBypassList := compileBypassPatterns bypassList
  let requestId := l.requestIDPrefixStr ++ freshId
  let ctx := SetRequestID l reqCtx requestId
  let shouldSkipLogging := shouldBypassMiddlewareLogging compiledBypassList path method
  { ctx := ctx
    autoLogs :=
      (if logRequestDetails && !shouldSkipLogging then ["Incoming request"] else []) ++
      (if logCompleteTime && !shouldSkipLogging then ["Request completed"] else []) }

/-! ### Derived notions used to state the claims -/

/-- Does the regex end (along its concatenation spine) with the `$` anchor
followed by the trailing `eps` the sequence parser produces?  Such a regex
only ever matches up to the end of the subject string. -/
def endsEolB : Regexp → Bool
  | .cat .eol .eps => true
  | .cat _ b => endsEolB b
  | _ => false

/-- The anchoring the matcher intends: after wrapping with `^...$`, the
pattern compiles to a regex that starts with the `^` anchor and whose
concatenation spine ends with the `$` anchor.  (This fails for patterns
with a top-level `|`, where RE2 precedence attaches the anchors to the
outer alternatives only.) -/
def anchoredOkB (path : String) : Bool :=
  match parseGoRegex ("^" ++ path ++ "$") with
  | some (.cat .bol r) => endsEolB r
  | _ => false

/-- Whether the wrapped pattern `^path$` matches the entire candidate, i.e.
has a match run from position 0 to the end of the string. -/
def wrappedWholeMatch (pat path : String) : Bool :=
  match parseGoRegex ("^" ++ pat ++ "$") with
  | some re => decide (path.toList.length ∈ re.posFrom path.toList 0)
  | none => false

/-- Whether the stored (unwrapped) pattern itself matches the entire
candidate path. -/
def storedWholeMatch (pat path : String) : Bool :=
  match parseGoRegex pat with
  | some re => decide (path.toList.length ∈ re.posFrom path.toList 0)
  | none => false

/-- The flattened fixed key-value pairs — group (1) of `combineAttributes`. -/
def fixedGroup (l : Logger) : List GoAny :=
  l.fixedKeyValues.flatMap fun kv => [.str kv.1, kv.2]

/-- The request-id pair when present — group (2) of `combineAttributes`. -/
def requestIdGroup (l : Logger) (ctx : GoContext) : List GoAny :=
  match GetRequestID l ctx with
  | (requestId, true) => [.str requestIdContextKey, .str requestId]
  | _ => []

/-- The user pair when present — group (3) of `combineAttributes`. -/
def userGroup (l : Logger) (ctx : GoContext) : List GoAny :=
  match GetUser l ctx with
  | (some user, true) => [.str userContextKey, user]
  | _ => []

/-- The flattened extra-field pairs when present — group (4) of
`combineAttributes`. -/
def extraFieldsGroup (l : Logger) (ctx : GoContext) : List GoAny :=
  match GetExtraFields l ctx with
  | (extraFieldsMap, true) => extraFieldsMap.flatMap fun kv => [.str kv.1, kv.2]
  | _ => []

/-! ### Helper lemmas -/

theorem splitOnChar_ne_nil (sep : Char) (l : List Char) : splitOnChar sep l ≠ [] := by
  induction l with
  | nil => simp [splitOnChar]
  | cons c rest ih =>
    simp only [splitOnChar, List.foldr_cons] at *
    rcases h : List.foldr
        (fun c acc =>
          match acc with
          | [] => [[c]]
          | curr :: rest => if c = sep then [] :: curr :: rest else (c :: curr) :: rest)
        [[]] rest with _ | ⟨curr, rest'⟩
    · exact absurd h ih
    · rw [h]
      show ¬(if c = sep then [] :: curr :: rest' else (c :: curr) :: rest') = []
      split <;> simp

theorem shouldBypass_cons (b : BypassRequestLogging)
    (rest : List BypassRequestLogging) (path method : String) :
    shouldBypassMiddlewareLogging (b :: rest) path method =
      (ruleMatches b path method || shouldBypassMiddlewareLogging rest path method) := by
  rcases hm : matchMethod b.Methods method <;>
    rcases hir : b.IsRegex <;>
      simp [shouldBypassMiddlewareLogging, ruleMatches, hm, hir] <;>
        first
          | rfl
          | (split <;> simp_all)

theorem shouldBypass_eq_any (l : List BypassRequestLogging) (path method : String) :
    shouldBypassMiddlewareLogging l path method = l.any fun b => ruleMatches b path method := by
  induction l with
  | nil => simp [shouldBypassMiddlewareLogging]
  | cons b rest ih => rw [shouldBypass_cons, ih, List.any_cons]

theorem shouldBypass_append (xs ys : List BypassRequestLogging) (path method : String) :
    shouldBypassMiddlewareLogging (xs ++ ys) path method =
      (shouldBypassMiddlewareLogging xs path method ||
        shouldBypassMiddlewareLogging ys path method) := by
  simp [shouldBypass_eq_any, List.any_append]

/-- C2: the hierarchical glob matcher satisfies the spec's examples — a
bare `**` pattern matches every path, `/a/*/c` matches `/a/b/c` but not
`/a/b/d/c`, and `/a/**` matches `/a`, `/a/b` and `/a/b/c` (a final `**`
pattern segment matches any remaining suffix, including the empty one). -/
theorem antGlob_spec_examples :
    (∀ path : String, matchAntPattern "**" path = true) ∧
    matchAntPattern "/a/*/c" "/a/b/c" = true ∧
    matchAntPattern "/a/*/c" "/a/b/d/c" = false ∧
    matchAntPattern "/a/**" "/a" = true ∧
    matchAntPattern "/a/**" "/a/b" = true ∧
    matchAntPattern "/a/**" "/a/b/c" = true := by
  refine ⟨?_, by decide, by decide, by decide, by decide, by decide⟩
  intro path
  unfold matchAntPattern
  split
  · rfl
  · have h1 : splitOnChar '/' (trimCharEnds '/' ("**" : String).toList) = [['*', '*']] := by
      decide
    rw [h1]
    rcases h : splitOnChar '/' (trimCharEnds '/' path.toList) with _ | ⟨q, qs⟩
    · exact absurd h (splitOnChar_ne_nil _ _)
    · simp [matchAntParts]

/-- C3 counterexample: the claim asserts that pattern `use?r*` matches the
segment `user123`, but the code rejects it — after `use?` consumes `user`,
the literal `r` in the pattern meets `1` with no `*` yet seen, so the
matcher fails without backtracking. -/
theorem segmentWildcard_claim_counterexample :
    matchSegment "use?r*".toList "user123".toList = false := by decide

/-- C3 amended: under segment wildcard matching (`?` exactly one character,
`*` zero or more characters, greedy with backtracking) the pattern
`use?r*` requires `use`, then any one character, then `r`, then anything:
it matches `usear` and `userr123`, but none of `user123`, `usar`, `use_12`. -/
theorem segmentWildcard_examples :
    matchSegment "use?r*".toList "usear".toList = true ∧
    matchSegment "use?r*".toList "userr123".toList = true ∧
    matchSegment "use?r*".toList "user123".toList = false ∧
    matchSegment "use?r*".toList "usar".toList = false ∧
    matchSegment "use?r*".toList "use_12".toList = false := by
  refine ⟨by decide, by decide, by decide, by decide, by decide⟩

/-- C1 counterexample: the claim's end-to-end scenario asserts that
`POST /metrics` bypasses, but the regex rule's method filter is `GET`-only
and the glob rule's path is `/health`, so the code logs the request
normally. -/
theorem shouldBypass_post_metrics_counterexample :
    shouldBypassMiddlewareLogging scenarioRegistry "/metrics" "POST" = false := by
  decide

/-- C1 amended: `ShouldBypass` is an existential OR over the rule list —
true iff some rule's method filter accepts the method and its path pattern,
per its dialect, matches the path — and on the two-rule scenario registry
`GET /health` and `GET /metrics` bypass, while `POST /metrics`,
`GET /metrics/extra` and `GET /other` do not. -/
theorem shouldBypass_exists_or_with_scenario :
    (∀ (l : List BypassRequestLogging) (path method : String),
      shouldBypassMiddlewareLogging l path method = true ↔
        ∃ b ∈ l, matchMethod b.Methods method = true ∧
          (if b.IsRegex = true then matchRegex b path = true
           else matchAntPattern b.Path path = true)) ∧
    shouldBypassMiddlewareLogging scenarioRegistry "/health" "GET" = true ∧
    shouldBypassMiddlewareLogging scenarioRegistry "/metrics" "GET" = true ∧
    shouldBypassMiddlewareLogging scenarioRegistry "/metrics" "POST" = false ∧
    shouldBypassMiddlewareLogging scenarioRegistry "/metrics/extra" "GET" = false ∧
    shouldBypassMiddlewareLogging scenarioRegistry "/other" "GET" = false := by
  refine ⟨?_, by decide, by decide, by decide, by decide, by decide⟩
  intro l path method
  rw [shouldBypass_eq_any, List.any_eq_true]
  refine exists_congr fun b => and_congr_right fun _ => ?_
  rcases hir : b.IsRegex <;> simp [ruleMatches, hir]

/-- C5: a regex rule whose pattern fails to compile survives registry
construction unchanged, matches no path at all, and its presence never
changes the bypass decision. -/
theorem compileFailure_rule_never_bypasses
    (l1 l2 : List BypassRequestLogging) (bad : BypassRequestLogging)
    (hreg : bad.IsRegex = true) (hnil : bad.regex = none)
    (hfail : parseGoRegex ("^" ++ bad.Path ++ "$") = none) :
    compileBypassPatterns (l1 ++ bad :: l2) =
        compileBypassPatterns l1 ++ bad :: compileBypassPatterns l2 ∧
    (∀ path, matchRegex bad path = false) ∧
    (∀ path method,
      shouldBypassMiddlewareLogging (compileBypassPatterns (l1 ++ bad :: l2)) path method =
        shouldBypassMiddlewareLogging (compileBypassPatterns (l1 ++ l2)) path method) := by
  have hbad : (if bad.IsRegex then
      match parseGoRegex ("^" ++ bad.Path ++ "$") with
      | some re => { bad with regex := some re }
      | none => bad
    else bad) = bad := by
    simp [hreg, hfail]
  have hmr : ∀ path, matchRegex bad path = false := by
    intro path
    simp [matchRegex, hnil, hfail]
  refine ⟨?_, hmr, ?_⟩
  · simp [compileBypassPatterns, hbad]
  · intro path method
    simp [compileBypassPatterns, shouldBypass_eq_any, List.any_append, List.any_cons,
      ruleMatches, hreg, hfail, hmr path]

/-- C5 witness: a concrete registry with the uncompilable regex rule `(`
behaves exactly like the registry without it. -/
theorem compileFailure_rule_never_bypasses_witness :
    parseGoRegex ("^" ++ "(" ++ "$") = none ∧
    shouldBypassMiddlewareLogging
        (compileBypassPatterns
          ([] ++ ⟨"(", "", true, none⟩ :: [⟨"/health", "", false, none⟩]))
        "/health" "GET" =
      shouldBypassMiddlewareLogging
        (compileBypassPatterns ([] ++ [⟨"/health", "", false, none⟩]))
        "/health" "GET" :=
  ⟨by decide,
    (compileFailure_rule_never_bypasses [] [⟨"/health", "", false, none⟩]
      ⟨"(", "", true, none⟩ rfl rfl (by decide)).2.2 "/health" "GET"⟩

theorem posFrom_cat_mem {a b : Regexp} {s : List Char} {i j : Nat} :
    j ∈ Regexp.posFrom s (.cat a b) i ↔
      ∃ m, m ∈ Regexp.posFrom s a i ∧ j ∈ Regexp.posFrom s b m := by
  simp [Regexp.posFrom, List.mem_dedup, List.mem_flatMap]

theorem endsEolB_cat_cases {a b : Regexp} (h : endsEolB (.cat a b) = true) :
    (a = .eol ∧ b = .eps) ∨ endsEolB b = true := by
  cases a <;> cases b <;> simp_all [endsEolB]

theorem endsEolB_posFrom (r : Regexp) (h : endsEolB r = true) :
    ∀ (s : List Char) (i j : Nat), j ∈ Regexp.posFrom s r i → j = s.length := by
  induction r with
  | cat a b iha ihb =>
    intro s i j hj
    rcases endsEolB_cat_cases h with ⟨rfl, rfl⟩ | hb
    · rw [posFrom_cat_mem] at hj
      obtain ⟨m, hm, hj⟩ := hj
      simp [Regexp.posFrom] at hm hj
      omega
    · rw [posFrom_cat_mem] at hj
      obtain ⟨m, _, hj⟩ := hj
      exact ihb hb s m j hj
  | eps => simp [endsEolB] at h
  | lit c => simp [endsEolB] at h
  | cls rs => simp [endsEolB] at h
  | dot => simp [endsEolB] at h
  | bol => simp [endsEolB] at h
  | eol => simp [endsEolB] at h
  | alt a b => simp [endsEolB] at h
  | star a => simp [endsEolB] at h

theorem posFrom_bol_cat_ne_zero {r : Regexp} {s : List Char} {i : Nat} (hi : i ≠ 0) :
    Regexp.posFrom s (.cat .bol r) i = [] := by
  simp [Regexp.posFrom, hi]

theorem posFrom_bol_cat_zero_mem {r : Regexp} {s : List Char} {j : Nat} :
    j ∈ Regexp.posFrom s (.cat .bol r) 0 ↔ j ∈ Regexp.posFrom s r 0 := by
  simp [posFrom_cat_mem, Regexp.posFrom]

/-- C4 counterexample: for the regex rule with stored pattern `a|b`, the
compiled registry bypasses the path `ab` (RE2 precedence turns the wrapped
pattern `^a|b$` into `(^a)|(b$)`, so the prefix `a` of `ab` matches), yet
the stored pattern does not match the entire path — the matcher accepted a
proper-substring match, contradicting the claim's universal anchoring. -/
theorem matchRegex_substring_counterexample :
    shouldBypassMiddlewareLogging
        (compileBypassPatterns [⟨"a|b", "", true, none⟩]) "ab" "GET" = true ∧
    storedWholeMatch "a|b" "ab" = false := by
  refine ⟨by decide, by decide⟩

/-- C4 amended: whenever wrapping with `^...$` actually yields an anchored
regex (`anchoredOkB`, which holds for every pattern with no top-level
alternation and no trailing escape, e.g. `/api/v[0-9]+/users`), the
matcher's substring search coincides with whole-path matching: it accepts
exactly when the wrapped pattern matches the entire candidate path, never a
proper substring. -/
theorem matchRegex_anchored_whole (b : BypassRequestLogging) (path : String)
    (hre : b.regex = parseGoRegex ("^" ++ b.Path ++ "$"))
    (hanch : anchoredOkB b.Path = true) :
    matchRegex b path = wrappedWholeMatch b.Path path := by
  rcases hp : parseGoRegex ("^" ++ b.Path ++ "$") with _ | re
  · rw [anchoredOkB, hp] at hanch
    simp at hanch
  · rw [anchoredOkB, hp] at hanch
    cases re
    case eps => simp at hanch
    case lit c => simp at hanch
    case cls rs => simp at hanch
    case dot => simp at hanch
    case bol => simp at hanch
    case eol => simp at hanch
    case alt a b' => simp at hanch
    case star a => simp at hanch
    case cat a r =>
      cases a <;> simp at hanch
      case bol =>
        have hL : matchRegex b path = regexpMatchString (.cat .bol r) path := by
          rw [matchRegex, hre, hp]
        have hR : wrappedWholeMatch b.Path path =
            decide (path.toList.length ∈ Regexp.posFrom path.toList (.cat .bol r) 0) := by
          rw [wrappedWholeMatch, hp]
        rw [hL, hR]
        have key : regexpMatchString (.cat .bol r) path = true ↔
            path.toList.length ∈ Regexp.posFrom path.toList (.cat .bol r) 0 := by
          constructor
          · intro h
            rw [regexpMatchString, List.any_eq_true] at h
            obtain ⟨i, _, hne⟩ := h
            have hne' : Regexp.posFrom path.toList (.cat .bol r) i ≠ [] := by
              simpa using hne
            obtain ⟨j, hj⟩ := List.exists_mem_of_ne_nil _ hne'
            by_cases hi0 : i = 0
            · subst hi0
              have hj' : j ∈ Regexp.posFrom path.toList r 0 :=
                posFrom_bol_cat_zero_mem.mp hj
              have hjl : j = path.toList.length :=
                endsEolB_posFrom r hanch path.toList 0 j hj'
              rw [← hjl]
              exact hj
            · rw [posFrom_bol_cat_ne_zero hi0] at hj
              cases hj
          · intro h
            rw [regexpMatchString, List.any_eq_true]
            refine ⟨0, by simp, ?_⟩
            simpa using List.ne_nil_of_mem h
        cases hL' : regexpMatchString (.cat .bol r) path
        · symm
          rw [decide_eq_false_iff_not]
          intro hmem
          have := key.mpr hmem
          rw [hL'] at this
          cases this
        · symm
          rw [decide_eq_true_eq]
          exact key.mp hL'

/-- C4 witness: the anchoredness condition holds for the spec's example
pattern `/api/v[0-9]+/users`, the theorem applies to its compiled rule, and
concretely the rule matches `/api/v2/users` and rejects `/api/v2/users/1`. -/
theorem matchRegex_anchored_whole_witness :
    anchoredOkB "/api/v[0-9]+/users" = true ∧
    matchRegex
        ⟨"/api/v[0-9]+/users", "GET", true,
          parseGoRegex ("^" ++ "/api/v[0-9]+/users" ++ "$")⟩ "/api/v2/users" =
      wrappedWholeMatch "/api/v[0-9]+/users" "/api/v2/users" ∧
    matchRegex
        ⟨"/api/v[0-9]+/users", "GET", true,
          parseGoRegex ("^" ++ "/api/v[0-9]+/users" ++ "$")⟩ "/api/v2/users" = true ∧
    matchRegex
        ⟨"/api/v[0-9]+/users", "GET", true,
          parseGoRegex ("^" ++ "/api/v[0-9]+/users" ++ "$")⟩ "/api/v2/users/1" = false :=
  ⟨by decide,
    matchRegex_anchored_whole
      ⟨"/api/v[0-9]+/users", "GET", true,
        parseGoRegex ("^" ++ "/api/v[0-9]+/users" ++ "$")⟩
      "/api/v2/users" rfl (by decide),
    by decide, by decide⟩

theorem foldl_flat_append (m : List (String × GoAny)) (init : List GoAny) :
    m.foldl (fun acc kv => acc ++ [.str kv.1, kv.2]) init =
      init ++ m.flatMap fun kv => [.str kv.1, kv.2] := by
  induction m generalizing init with
  | nil => simp
  | cons kv rest ih => simp [ih]

/-- C7: `combineAttributes` is the concatenation, in this fixed order, of
the fixed key-values, the request-id pair, the user pair, the extra-field
pairs, and the caller-supplied pairs; each group function is empty exactly
when its context value is absent, so an absent group is simply omitted for
every combination of present/absent groups. -/
theorem combineAttributes_group_order (l : Logger) (ctx : GoContext)
    (kvs : List GoAny) :
    combineAttributes l ctx kvs =
      fixedGroup l ++ requestIdGroup l ctx ++ userGroup l ctx ++
        extraFieldsGroup l ctx ++ kvs := by
  unfold combineAttributes fixedGroup requestIdGroup userGroup extraFieldsGroup
  rcases hR : GetRequestID l ctx with ⟨rid, fR⟩
  rcases hU : GetUser l ctx with ⟨u, fU⟩
  rcases hE : GetExtraFields l ctx with ⟨m, fE⟩
  cases fR <;> rcases u with _ | u <;> cases fU <;> cases fE <;>
    simp [hR, hU, hE, foldl_flat_append, List.append_assoc]

/-- C8: deriving a context with `SetRequestID`/`SetUser` makes the
corresponding getter find exactly the stored value, and on any context
where the key was never bound the getter reports `found = false`; since a
`Set` allocates a new child node, the original context keeps reporting
`found = false` afterwards. -/
theorem ctxGetSet_roundtrip (l : Logger) (c : GoContext) (v : String)
    (u : GoAny) :
    GetRequestID l (SetRequestID l c v) = (v, true) ∧
    GetUser l (SetUser l c u) = (some u, true) ∧
    (c.value requestIdKey = none → GetRequestID l c = ("", false)) ∧
    (c.value userKey = none → GetUser l c = (none, false)) := by
  refine ⟨?_, ?_, ?_, ?_⟩
  · simp [GetRequestID, SetRequestID, GoContext.value]
  · simp [GetUser, SetUser, GoContext.value]
  · intro h
    simp [GetRequestID, h]
  · intro h
    simp [GetUser, h]

/-- C8 witness: the round-trip laws evaluated on the background context
with a concrete id and user. -/
theorem ctxGetSet_roundtrip_witness :
    GetRequestID ⟨"", [], [], false⟩
        (SetRequestID ⟨"", [], [], false⟩ .background "abc") = ("abc", true) ∧
    GetUser ⟨"", [], [], false⟩
        (SetUser ⟨"", [], [], false⟩ .background (.str "alice")) =
      (some (.str "alice"), true) ∧
    GetRequestID ⟨"", [], [], false⟩ .background = ("", false) ∧
    GetUser ⟨"", [], [], false⟩ .background = (none, false) :=
  ⟨(ctxGetSet_roundtrip ⟨"", [], [], false⟩ .background "abc" (.str "alice")).1,
   (ctxGetSet_roundtrip ⟨"", [], [], false⟩ .background "abc" (.str "alice")).2.1,
   (ctxGetSet_roundtrip ⟨"", [], [], false⟩ .background "abc" (.str "alice")).2.2.1 rfl,
   (ctxGetSet_roundtrip ⟨"", [], [], false⟩ .background "abc" (.str "alice")).2.2.2 rfl⟩

/-- C6: the middleware binds the generated request id (prefix + fresh
uuid) into the request context regardless of the bypass decision, emits no
automatic record when the request is bypassed, and emits exactly the
"Incoming request" and "Request completed" records when detail and
completion logging are both enabled and the request is not bypassed. -/
theorem middleware_requestId_and_record_counts
    (l : Logger) (d c : Bool) (bl : List BypassRequestLogging)
    (path method freshId : String) (reqCtx : GoContext) :
    GetRequestID l (LoggerMiddleware l d c bl path method freshId reqCtx).ctx =
        (l.requestIDPrefixStr ++ freshId, true) ∧
    (shouldBypassMiddlewareLogging (compileBypassPatterns bl) path method = true →
      (LoggerMiddleware l d c bl path method freshId reqCtx).autoLogs = []) ∧
    (d = true → c = true →
      shouldBypassMiddlewareLogging (compileBypassPatterns bl) path method = false →
      (LoggerMiddleware l d c bl path method freshId reqCtx).autoLogs =
        ["Incoming request", "Request completed"]) := by
  refine ⟨?_, ?_, ?_⟩
  · simp [LoggerMiddleware, GetRequestID, SetRequestID, GoContext.value]
  · intro h
    simp [LoggerMiddleware, h]
  · intro hd hc h
    simp [LoggerMiddleware, hd, hc, h]

/-- C6 witness: a concrete bypassed request (glob rule `/health`, request
`GET /health`) still carries the bound request id while emitting zero
automatic records. -/
theorem middleware_requestId_and_record_counts_witness :
    GetRequestID ⟨"req-", [], [], false⟩
        (LoggerMiddleware ⟨"req-", [], [], false⟩ true true
          [⟨"/health", "", false, none⟩] "/health" "GET" "123" .background).ctx =
      ("req-" ++ "123", true) ∧
    (LoggerMiddleware ⟨"req-", [], [], false⟩ true true
        [⟨"/health", "", false, none⟩] "/health" "GET" "123" .background).autoLogs = [] :=
  ⟨(middleware_requestId_and_record_counts ⟨"req-", [], [], false⟩ true true
      [⟨"/health", "", false, none⟩] "/health" "GET" "123" .background).1,
   (middleware_requestId_and_record_counts ⟨"req-", [], [], false⟩ true true
      [⟨"/health", "", false, none⟩] "/health" "GET" "123" .background).2.1 (by decide)⟩

theorem foldl_withValue_value_ctxKey (m : List (String × GoAny)) (base : GoContext)
    (s : String) :
    (m.foldl (fun acc kv => acc.withValue (.strKey kv.1) kv.2) base).value (.ctxKey s) =
      base.value (.ctxKey s) := by
  induction m generalizing base with
  | nil => rfl
  | cons kv rest ih =>
    rw [List.foldl_cons, ih]
    simp [GoContext.value]

theorem foldl_withValue_doneAt (m : List (String × GoAny)) (base : GoContext)
    (now : Nat) :
    (m.foldl (fun acc kv => acc.withValue (.strKey kv.1) kv.2) base).doneAt now =
      base.doneAt now := by
  induction m generalizing base with
  | nil => rfl
  | cons kv rest ih =>
    rw [List.foldl_cons, ih]
    rfl

theorem mem_mapInsert {m : List (String × GoAny)} {k : String} {v : GoAny}
    {kv' : String × GoAny} (h : kv' ∈ mapInsert m k v) : kv' = (k, v) ∨ kv' ∈ m := by
  unfold mapInsert at h
  split at h
  · obtain ⟨kv, hkv, hmap⟩ := List.mem_map.mp h
    by_cases hk : kv.1 = k
    · simp [hk] at hmap
      subst hmap
      exact Or.inl rfl
    · simp [hk] at hmap
      subst hmap
      exact Or.inr hkv
  · rcases List.mem_append.mp h with h | h
    · exact Or.inr h
    · simp at h
      subst h
      exact Or.inl rfl

theorem mapInsert_any_self (m : List (String × GoAny)) (k : String) (v : GoAny) :
    (mapInsert m k v).any (fun kv => kv.1 = k) = true := by
  unfold mapInsert
  split
  case isTrue h =>
    rw [List.any_eq_true] at h ⊢
    obtain ⟨kv, hkv, hk⟩ := h
    refine ⟨(k, v), List.mem_map.mpr ⟨kv, hkv, ?_⟩, by simp⟩
    simp at hk
    simp [hk]
  case isFalse h =>
    rw [List.any_eq_true]
    exact ⟨(k, v), List.mem_append.mpr (Or.inr (by simp)), by simp⟩

theorem mapInsert_any_mono (m : List (String × GoAny)) (k f : String) (v : GoAny)
    (h : m.any (fun kv => kv.1 = f) = true) :
    (mapInsert m k v).any (fun kv => kv.1 = f) = true := by
  by_cases hfk : f = k
  · subst hfk
    exact mapInsert_any_self m f v
  · unfold mapInsert
    rw [List.any_eq_true] at h
    obtain ⟨kv, hkv, hk⟩ := h
    simp at hk
    split
    · rw [List.any_eq_true]
      refine ⟨if kv.1 = k then (k, v) else kv, List.mem_map.mpr ⟨kv, hkv, rfl⟩, ?_⟩
      have hne : kv.1 ≠ k := by
        rw [hk]
        exact hfk
      simp [hne, hfk, hk]
    · rw [List.any_eq_true]
      exact ⟨kv, List.mem_append.mpr (Or.inl hkv), by simp [hk]⟩

theorem buildFold_sound (c : GoContext) (F : List String)
    (acc : List (String × GoAny))
    (hacc : ∀ kv ∈ acc, c.value (.strKey kv.1) = some kv.2) :
    ∀ kv ∈ F.foldl
        (fun m field =>
          match c.value (.strKey field) with
          | some v => mapInsert m field v
          | none => m)
        acc,
      c.value (.strKey kv.1) = some kv.2 := by
  induction F generalizing acc with
  | nil => exact hacc
  | cons g F' ih =>
    intro kv hkv
    rw [List.foldl_cons] at hkv
    refine ih _ ?_ kv hkv
    intro kv' hkv'
    rcases hg : c.value (.strKey g) with _ | v
    · rw [hg] at hkv'
      exact hacc kv' hkv'
    · rw [hg] at hkv'
      rcases mem_mapInsert hkv' with rfl | hmem
      · simpa using hg
      · exact hacc kv' hmem

theorem buildFold_any (c : GoContext) (F : List String) (f : String) :
    ∀ acc : List (String × GoAny),
      (acc.any (fun kv => kv.1 = f) = true ∨
        (f ∈ F ∧ (c.value (.strKey f)).isSome)) →
      (F.foldl
        (fun m field =>
          match c.value (.strKey field) with
          | some v => mapInsert m field v
          | none => m)
        acc).any (fun kv => kv.1 = f) = true := by
  induction F with
  | nil =>
    rintro acc (h | ⟨h, _⟩)
    · exact h
    · cases h
  | cons g F' ih =>
    rintro acc (h | ⟨hf, hsome⟩)
    · rw [List.foldl_cons]
      refine ih _ (Or.inl ?_)
      rcases hg : c.value (.strKey g) with _ | v
      · exact h
      · exact mapInsert_any_mono acc g f v h
    · rw [List.foldl_cons]
      rcases List.mem_cons.mp hf with rfl | hf'
      · rcases hg : c.value (.strKey f) with _ | v
        · rw [hg] at hsome
          cases hsome
        · exact ih _ (Or.inl (mapInsert_any_self acc f v))
      · exact ih _ (Or.inr ⟨hf', hsome⟩)

theorem foldl_withValue_value_strKey (c : GoContext) (m : List (String × GoAny))
    (hsound : ∀ kv ∈ m, c.value (.strKey kv.1) = some kv.2) (base : GoContext)
    (f : String) :
    (m.foldl (fun acc kv => acc.withValue (.strKey kv.1) kv.2) base).value (.strKey f) =
      if m.any (fun kv => kv.1 = f) then c.value (.strKey f)
      else base.value (.strKey f) := by
  induction m generalizing base with
  | nil => simp
  | cons kv rest ih =>
    rw [List.foldl_cons, ih (fun kv' hkv' => hsound kv' (List.mem_cons_of_mem _ hkv'))]
    by_cases hany : rest.any (fun kv => kv.1 = f) = true
    · simp [hany, List.any_cons]
    · rw [Bool.not_eq_true] at hany
      by_cases hk : f = kv.1
      · subst hk
        have hval : c.value (.strKey kv.1) = some kv.2 := hsound kv (by simp)
        simp [hany, List.any_cons, GoContext.value, hval]
      · have hne : CtxKey.strKey f ≠ CtxKey.strKey kv.1 := by
          intro hcontra
          injection hcontra with h
          exact hk h
        have hk' : ¬ kv.1 = f := fun h => hk h.symm
        simp [hany, List.any_cons, GoContext.value, hne, hk']

theorem getExtraFields_sound (l : Logger) (c : GoContext) :
    ∀ kv ∈ (GetExtraFields l c).1, c.value (.strKey kv.1) = some kv.2 := by
  unfold GetExtraFields
  split
  · intro kv hkv
    simp at hkv
  · intro kv hkv
    exact buildFold_sound c l.extraFields [] (by simp) kv hkv

theorem getExtraFields_any_isSome (l : Logger) (c : GoContext) (f : String)
    (hf : f ∈ l.extraFields) (hsome : (c.value (.strKey f)).isSome = true) :
    (GetExtraFields l c).1.any (fun kv => kv.1 = f) = true := by
  unfold GetExtraFields
  split
  case isTrue h =>
    rw [List.isEmpty_iff] at h
    rw [h] at hf
    cases hf
  case isFalse h =>
    exact buildFold_any c l.extraFields f [] (Or.inr ⟨hf, hsome⟩)

theorem getExtraFields_any_none (l : Logger) (c : GoContext) (f : String)
    (hnone : c.value (.strKey f) = none) :
    (GetExtraFields l c).1.any (fun kv => kv.1 = f) = false := by
  by_contra hcon
  rw [Bool.not_eq_false, List.any_eq_true] at hcon
  obtain ⟨kv, hkv, hk⟩ := hcon
  simp at hk
  have hs := getExtraFields_sound l c kv hkv
  rw [hk, hnone] at hs
  simp at hs

theorem detach_value_requestIdKey (l : Logger) (c : GoContext) :
    (DetachContext l c).value requestIdKey =
      (match GetRequestID l c with
       | (requestID, true) => some (GoAny.str requestID)
       | _ => none) := by
  simp only [DetachContext]
  rcases hE : GetExtraFields l c with ⟨m, fE⟩
  cases fE
  · rcases hU : GetUser l c with ⟨u, fU⟩
    rcases hR : GetRequestID l c with ⟨rid, fR⟩
    rcases u with _ | u <;> cases fU <;> cases fR <;>
      simp [SetUser, SetRequestID, GoContext.value, requestIdKey, userKey]
  · rw [show requestIdKey = CtxKey.ctxKey "request_id" from rfl,
      foldl_withValue_value_ctxKey]
    rcases hU : GetUser l c with ⟨u, fU⟩
    rcases hR : GetRequestID l c with ⟨rid, fR⟩
    rcases u with _ | u <;> cases fU <;> cases fR <;>
      simp [SetUser, SetRequestID, GoContext.value, requestIdKey, userKey]

theorem foldl_withValue_value_uKey (m : List (String × GoAny)) (base : GoContext) :
    (m.foldl (fun acc kv => acc.withValue (.strKey kv.1) kv.2) base).value userKey =
      base.value userKey :=
  foldl_withValue_value_ctxKey m base "user"

theorem userKey_ne_requestIdKey : userKey ≠ requestIdKey := by decide

theorem detach_value_userKey (l : Logger) (c : GoContext) :
    (DetachContext l c).value userKey = c.value userKey := by
  simp only [DetachContext]
  rcases hE : GetExtraFields l c with ⟨m, fE⟩
  cases fE
  · rcases hU : GetUser l c with ⟨u, fU⟩
    have hU' := hU
    unfold GetUser at hU'
    rcases hv : c.value userKey with _ | v <;> rw [hv] at hU' <;>
      rcases u with _ | u <;> cases fU <;> simp at hU' <;>
        rcases hR : GetRequestID l c with ⟨rid, fR⟩ <;> cases fR <;>
          simp_all [SetUser, SetRequestID, GoContext.value, userKey_ne_requestIdKey]
  · rw [foldl_withValue_value_uKey]
    rcases hU : GetUser l c with ⟨u, fU⟩
    have hU' := hU
    unfold GetUser at hU'
    rcases hv : c.value userKey with _ | v <;> rw [hv] at hU' <;>
      rcases u with _ | u <;> cases fU <;> simp at hU' <;>
        rcases hR : GetRequestID l c with ⟨rid, fR⟩ <;> cases fR <;>
          simp_all [SetUser, SetRequestID, GoContext.value, userKey_ne_requestIdKey]

theorem strKey_ne_requestIdKey (f : String) : CtxKey.strKey f ≠ requestIdKey := by
  simp [requestIdKey]

theorem strKey_ne_userKey (f : String) : CtxKey.strKey f ≠ userKey := by
  simp [userKey]

theorem detach_value_strKey (l : Logger) (c : GoContext) (f : String)
    (hf : f ∈ l.extraFields) :
    (DetachContext l c).value (.strKey f) = c.value (.strKey f) := by
  simp only [DetachContext]
  rcases hE : GetExtraFields l c with ⟨m, fE⟩
  cases fE
  · exfalso
    by_cases hemp : l.extraFields.isEmpty = true
    · rw [List.isEmpty_iff] at hemp
      rw [hemp] at hf
      cases hf
    · simp [GetExtraFields, hemp] at hE
  · have hm : m = (GetExtraFields l c).1 := by rw [hE]
    have hsound : ∀ kv ∈ m, c.value (.strKey kv.1) = some kv.2 := by
      intro kv hkv
      exact getExtraFields_sound l c kv (hm ▸ hkv)
    rw [foldl_withValue_value_strKey c m hsound]
    rcases hv : c.value (.strKey f) with _ | v
    · have hany : m.any (fun kv => kv.1 = f) = false := by
        rw [hm]
        exact getExtraFields_any_none l c f hv
      rw [hany]
      simp only [Bool.false_eq_true, if_false]
      rcases hU : GetUser l c with ⟨u, fU⟩
      rcases hR : GetRequestID l c with ⟨rid, fR⟩
      rcases u with _ | u <;> cases fU <;> cases fR <;>
        simp [SetUser, SetRequestID, GoContext.value, hv,
          strKey_ne_requestIdKey, strKey_ne_userKey]
    · have hany : m.any (fun kv => kv.1 = f) = true := by
        rw [hm]
        refine getExtraFields_any_isSome l c f hf ?_
        rw [hv]
        rfl
      rw [hany]
      simp

theorem detach_doneAt (l : Logger) (c : GoContext) (now : Nat) :
    (DetachContext l c).doneAt now = false := by
  simp only [DetachContext]
  rcases hE : GetExtraFields l c with ⟨m, fE⟩
  cases fE
  · rcases hU : GetUser l c with ⟨u, fU⟩
    rcases hR : GetRequestID l c with ⟨rid, fR⟩
    rcases u with _ | u <;> cases fU <;> cases fR <;>
      simp [SetUser, SetRequestID, GoContext.doneAt]
  · rw [foldl_withValue_doneAt]
    rcases hU : GetUser l c with ⟨u, fU⟩
    rcases hR : GetRequestID l c with ⟨rid, fR⟩
    rcases u with _ | u <;> cases fU <;> cases fR <;>
      simp [SetUser, SetRequestID, GoContext.doneAt]

/-- C9: `DetachContext` is a pure copy — the detached context reports the
same request id and user as the original, agrees with the original on every
allow-listed extra field, and carries no cancellation or deadline node, so
its done signal is false at every time regardless of what happens to the
original context. -/
theorem detachContext_pure_copy (l : Logger) (c : GoContext) :
    GetRequestID l (DetachContext l c) = GetRequestID l c ∧
    GetUser l (DetachContext l c) = GetUser l c ∧
    (∀ f, f ∈ l.extraFields →
      (DetachContext l c).value (.strKey f) = c.value (.strKey f)) ∧
    (∀ now, (DetachContext l c).doneAt now = false) := by
  refine ⟨?_, ?_, fun f hf => detach_value_strKey l c f hf, fun now => detach_doneAt l c now⟩
  · unfold GetRequestID
    rw [detach_value_requestIdKey]
    rcases hv : c.value requestIdKey with _ | v
    · have hR : GetRequestID l c = ("", false) := by simp [GetRequestID, hv]
      rw [hR]
    · rcases v with s | n
      · have hR : GetRequestID l c = (s, true) := by simp [GetRequestID, hv]
        rw [hR]
      · have hR : GetRequestID l c = ("", false) := by simp [GetRequestID, hv]
        rw [hR]
  · unfold GetUser
    rw [detach_value_userKey]

/-- C9 witness: detaching from a cancelled context carrying a request id,
a user and the allow-listed extra field `trace_id` preserves all three
values while the detached context's done signal stays false. -/
theorem detachContext_pure_copy_witness :
    GetRequestID ⟨"", [], ["trace_id"], false⟩
        (DetachContext ⟨"", [], ["trace_id"], false⟩
          (((GoContext.background.withValue requestIdKey (.str "r1")).withValue
              (.strKey "trace_id") (.str "t1")).withCancel true)) =
      GetRequestID ⟨"", [], ["trace_id"], false⟩
        (((GoContext.background.withValue requestIdKey (.str "r1")).withValue
            (.strKey "trace_id") (.str "t1")).withCancel true) ∧
    (DetachContext ⟨"", [], ["trace_id"], false⟩
        (((GoContext.background.withValue requestIdKey (.str "r1")).withValue
            (.strKey "trace_id") (.str "t1")).withCancel true)).value
        (.strKey "trace_id") =
      (((GoContext.background.withValue requestIdKey (.str "r1")).withValue
          (.strKey "trace_id") (.str "t1")).withCancel true).value
        (.strKey "trace_id") ∧
    (DetachContext ⟨"", [], ["trace_id"], false⟩
        (((GoContext.background.withValue requestIdKey (.str "r1")).withValue
            (.strKey "trace_id") (.str "t1")).withCancel true)).doneAt 5 = false :=
  ⟨(detachContext_pure_copy ⟨"", [], ["trace_id"], false⟩
      (((GoContext.background.withValue requestIdKey (.str "r1")).withValue
          (.strKey "trace_id") (.str "t1")).withCancel true)).1,
   (detachContext_pure_copy ⟨"", [], ["trace_id"], false⟩
      (((GoContext.background.withValue requestIdKey (.str "r1")).withValue
          (.strKey "trace_id") (.str "t1")).withCancel true)).2.2.1 "trace_id" (by simp),
   (detachContext_pure_copy ⟨"", [], ["trace_id"], false⟩
      (((GoContext.background.withValue requestIdKey (.str "r1")).withValue
          (.strKey "trace_id") (.str "t1")).withCancel true)).2.2.2 5⟩

theorem wildLoopF_isSome (pat str : List Char) :
    ∀ (fuel pIdx sIdx : Nat) (starIdx : Option Nat) (mIdx : Nat),
      mIdx ≤ sIdx → pIdx ≤ pat.length →
      (∀ k, starIdx = some k → k < pat.length) →
      (str.length - mIdx) * (pat.length + 2) + (pat.length - pIdx) < fuel →
      (wildLoopF pat str fuel pIdx sIdx starIdx mIdx).isSome = true := by
  intro fuel
  induction fuel with
  | zero =>
    intro pIdx sIdx starIdx mIdx _ _ _ hfuel
    exact absurd hfuel (Nat.not_lt_zero _)
  | succ n ih =>
    intro pIdx sIdx starIdx mIdx hms hpP hstar hfuel
    simp only [wildLoopF]
    split
    case isTrue hs =>
      split
      case isTrue hb1 =>
        refine ih (pIdx+1) (sIdx+1) starIdx mIdx (by omega) (by omega) hstar ?_
        have hgen := hfuel
        generalize hA : (str.length - mIdx) * (pat.length + 2) = A at hgen ⊢
        omega
      case isFalse hb1 =>
        split
        case isTrue hb2 =>
          refine ih (pIdx+1) sIdx (some pIdx) sIdx le_rfl (by omega)
            (fun k hk => by injection hk with h; omega) ?_
          have hmul : (str.length - sIdx) * (pat.length + 2) ≤
              (str.length - mIdx) * (pat.length + 2) :=
            Nat.mul_le_mul_right _ (by omega)
          have hgen := hfuel
          generalize hA : (str.length - mIdx) * (pat.length + 2) = A at hgen hmul
          generalize hB : (str.length - sIdx) * (pat.length + 2) = B at hmul ⊢
          omega
        case isFalse hb2 =>
          cases starIdx with
          | some k =>
            have hkP : k < pat.length := hstar k rfl
            have hmL : mIdx < str.length := lt_of_le_of_lt hms hs
            refine ih (k+1) (mIdx+1) (some k) (mIdx+1) le_rfl (by omega)
              (fun k' hk' => by injection hk' with h; omega) ?_
            have hexp : (str.length - mIdx) * (pat.length + 2) =
                (str.length - (mIdx+1)) * (pat.length + 2) + (pat.length + 2) := by
              have hsub : str.length - mIdx = (str.length - (mIdx+1)) + 1 := by omega
              rw [hsub, Nat.succ_mul]
            rw [hexp] at hfuel
            have hgen := hfuel
            generalize hC : (str.length - (mIdx+1)) * (pat.length + 2) = C at hgen ⊢
            omega
          | none => rfl
    case isFalse hs => rfl

/-- C10: the glob matcher is total — the within-segment backtracking loop
of `matchWildcard` always terminates within `(|str|+1)·(|pat|+2)`
iterations (the restart position strictly advances on every backtrack), so
`matchWildcard` never falls back to its fuel-exhaustion default, and
`matchAntPattern` (whose `**` recursion is structural on the pattern
suffix) is defined for all inputs. -/
theorem wildLoopF_total (pattern str : String) :
    (∃ b, wildLoopF pattern.toList str.toList
        ((str.toList.length + 1) * (pattern.toList.length + 2)) 0 0 none 0 = some b ∧
      matchWildcard pattern.toList str.toList = b) ∧
    (matchAntPattern pattern str = true ∨ matchAntPattern pattern str = false) := by
  have hsome := wildLoopF_isSome pattern.toList str.toList
    ((str.toList.length + 1) * (pattern.toList.length + 2)) 0 0 none 0
    (Nat.le_refl 0) (Nat.zero_le _) (fun k hk => by cases hk) ?_
  · rcases hb : wildLoopF pattern.toList str.toList
        ((str.toList.length + 1) * (pattern.toList.length + 2)) 0 0 none 0 with _ | b
    · rw [hb] at hsome
      cases hsome
    · exact ⟨⟨b, rfl, by rw [matchWildcard, hb]; rfl⟩,
        by rcases matchAntPattern pattern str with _ | _ <;> simp⟩
  · rw [Nat.sub_zero, Nat.sub_zero, Nat.succ_mul]
    generalize hA : str.toList.length * (pattern.toList.length + 2) = A
    omega
